import Mathlib

/-!
Shallow embedding of the core logic of scripts/build_data.py:
the threshold-crossing peak detector event_peaks and the
incremental merge/dedup step dedupe_peaks used by build_high_tide_index.
Timestamps are modelled as Nat (a monotonic-orderable instant),
water-level values as Rat (finite reals in feet).
-/

namespace BuildData

/-- The module constant THRESH_MINOR = 4.19 (minor flood stage, feet). -/
def THRESH_MINOR : ℚ := 419/100

/-- One iteration of the loop body of event_peaks (lines 78-89).
State none models in_evt = False; some pk models in_evt = True with
current peak pk.  Returns the new state and the records emitted by
this iteration (the Python peaks.append). -/
def peakStep (minor : ℚ) (st : Option (ℕ × ℚ)) (s : ℕ × ℚ) :
    Option (ℕ × ℚ) × List (ℕ × ℚ) :=
  match st with
  | none => if s.2 ≥ minor then (some s, []) else (none, [])
  | some pk =>
      let pk2 := if s.2 > pk.2 then s else pk
      if s.2 < minor then (none, [pk2]) else (some pk2, [])

/-- The loop of event_peaks run from an arbitrary state, including the
final flush (lines 91-92): at end of input a still-open peak is emitted. -/
def peakGo (minor : ℚ) : Option (ℕ × ℚ) → List (ℕ × ℚ) → List (ℕ × ℚ)
  | none, [] => []
  | some pk, [] => [pk]
  | st, s :: rest =>
      (peakStep minor st s).2 ++ peakGo minor (peakStep minor st s).1 rest

/-- event_peaks(points, minor) from build_data.py (lines 68-93). -/
def event_peaks (points : List (ℕ × ℚ)) (minor : ℚ) : List (ℕ × ℚ) :=
  peakGo minor none points

/-- Only the final state of the scan (the in_evt / peak variables after
the loop), used to speak about inputs that end while still ABOVE. -/
def runState (minor : ℚ) : Option (ℕ × ℚ) → List (ℕ × ℚ) → Option (ℕ × ℚ)
  | st, [] => st
  | st, s :: rest => runState minor (peakStep minor st s).1 rest

/-- Only the records emitted inside the loop (without the final flush). -/
def runEmits (minor : ℚ) : Option (ℕ × ℚ) → List (ℕ × ℚ) → List (ℕ × ℚ)
  | _, [] => []
  | st, s :: rest =>
      (peakStep minor st s).2 ++ runEmits minor (peakStep minor st s).1 rest

/-- Lookup in the Python dict m, modelled as an association list in
insertion order: the value at the first entry with the given key. -/
def dmLookup : List (ℕ × ℚ) → ℕ → Option ℚ
  | [], _ => none
  | p :: rest, t => if p.1 = t then some p.2 else dmLookup rest t

/-- The dict assignment m[t] = ft: overwrite the first entry with key t,
or append a fresh entry at the end of the insertion order. -/
def dmSet : List (ℕ × ℚ) → ℕ → ℚ → List (ℕ × ℚ)
  | [], t, ft => [(t, ft)]
  | p :: rest, t, ft => if p.1 = t then (t, ft) :: rest else p :: dmSet rest t ft

/-- The loop body of dedupe_peaks (line 105):
if (t not in m) or (ft > m[t]): m[t] = ft. -/
def dmUpd (m : List (ℕ × ℚ)) (t : ℕ) (ft : ℚ) : List (ℕ × ℚ) :=
  match dmLookup m t with
  | none => dmSet m t ft
  | some v => if ft > v then dmSet m t ft else m

/-- The whole dict-building loop of dedupe_peaks (lines 104-106). -/
def buildMap : List (ℕ × ℚ) → List (ℕ × ℚ) → List (ℕ × ℚ)
  | m, [] => m
  | m, p :: rest => buildMap (dmUpd m p.1 p.2) rest

/-- The timestamps of a record list, in order. -/
def keys (m : List (ℕ × ℚ)) : List ℕ := m.map Prod.fst

/-- dedupe_peaks(peaks) from build_data.py (lines 101-108): build the
dict keyed by timestamp keeping the max value on collision, then list
the records in ascending key order. -/
def dedupe_peaks (peaks : List (ℕ × ℚ)) : List (ℕ × ℚ) :=
  (List.insertionSort (· ≤ ·) (keys (buildMap [] peaks))).filterMap
    fun t => (dmLookup (buildMap [] peaks) t).map fun v => (t, v)

/-- The merge step of build_high_tide_index (lines 143-145):
merged = existing_peaks + new_peaks; merged_dedup = dedupe_peaks(merged). -/
def merge (existing incoming : List (ℕ × ℚ)) : List (ℕ × ℚ) :=
  dedupe_peaks (existing ++ incoming)

/-- The maximum value carried by entries with the given timestamp,
none when the timestamp does not occur. -/
def maxAt : List (ℕ × ℚ) → ℕ → Option ℚ
  | [], _ => none
  | p :: rest, t =>
      if p.1 = t then
        some (match maxAt rest t with | none => p.2 | some w => max p.2 w)
      else maxAt rest t

/-- Max of two optional values, none acting as the identity. -/
def omax : Option ℚ → Option ℚ → Option ℚ
  | none, b => b
  | some a, none => some a
  | some a, some b => some (max a b)

/-! Algebra of omax and maxAt. -/

theorem omax_none_right (a : Option ℚ) : omax a none = a := by
  cases a <;> rfl

theorem omax_assoc (a b c : Option ℚ) : omax (omax a b) c = omax a (omax b c) := by
  cases a <;> cases b <;> cases c <;> simp [omax, max_assoc]

theorem omax_self_left (a b : Option ℚ) : omax a (omax a b) = omax a b := by
  cases a with
  | none => rfl
  | some x =>
    cases b with
    | none => simp [omax, max_self]
    | some y =>
      simp only [omax]
      rw [← max_assoc, max_self]

theorem maxAt_cons (p : ℕ × ℚ) (rest : List (ℕ × ℚ)) (t : ℕ) :
    maxAt (p :: rest) t =
      if p.1 = t then omax (some p.2) (maxAt rest t) else maxAt rest t := by
  by_cases h : p.1 = t
  · simp only [maxAt, h, if_pos]
    cases maxAt rest t <;> simp [omax]
  · simp [maxAt, h]

theorem maxAt_eq_none_iff (l : List (ℕ × ℚ)) (t : ℕ) :
    maxAt l t = none ↔ t ∉ keys l := by
  induction l with
  | nil => simp [maxAt, keys]
  | cons p rest ih =>
    by_cases h : p.1 = t
    · simp [maxAt, keys, h, ih]
    · simp [maxAt, keys, h, ih]
      exact fun _ he => h he.symm

theorem maxAt_append (l₁ l₂ : List (ℕ × ℚ)) (t : ℕ) :
    maxAt (l₁ ++ l₂) t = omax (maxAt l₁ t) (maxAt l₂ t) := by
  induction l₁ with
  | nil => simp [maxAt, omax]
  | cons p rest ih =>
    by_cases h : p.1 = t
    · simp [List.cons_append, maxAt_cons, h, ih, omax_assoc]
    · simp [List.cons_append, maxAt_cons, h, ih]

/-! Lookup and update lemmas for the dict model. -/

theorem dmLookup_dmSet_self (m : List (ℕ × ℚ)) (t : ℕ) (ft : ℚ) :
    dmLookup (dmSet m t ft) t = some ft := by
  induction m with
  | nil => simp [dmSet, dmLookup]
  | cons p rest ih =>
    by_cases h : p.1 = t
    · simp [dmSet, h, dmLookup]
    · simp [dmSet, h, dmLookup, ih]

theorem dmLookup_dmSet_ne (m : List (ℕ × ℚ)) (t : ℕ) (ft : ℚ) (u : ℕ)
    (hu : u ≠ t) : dmLookup (dmSet m t ft) u = dmLookup m u := by
  induction m with
  | nil => simp [dmSet, dmLookup, Ne.symm hu]
  | cons p rest ih =>
    by_cases h : p.1 = t
    · simp [dmSet, h, dmLookup, Ne.symm hu]
    · simp [dmSet, h, dmLookup, ih]

theorem dmLookup_dmUpd_self (m : List (ℕ × ℚ)) (t : ℕ) (ft : ℚ) :
    dmLookup (dmUpd m t ft) t = omax (dmLookup m t) (some ft) := by
  unfold dmUpd
  cases h : dmLookup m t with
  | none => simp [dmLookup_dmSet_self, omax]
  | some v =>
    by_cases hv : ft > v
    · simp [hv, dmLookup_dmSet_self, omax, max_eq_right (le_of_lt hv)]
    · simp [hv, h, omax, max_eq_left (le_of_not_lt hv)]

theorem dmLookup_dmUpd_ne (m : List (ℕ × ℚ)) (t : ℕ) (ft : ℚ) (u : ℕ)
    (hu : u ≠ t) : dmLookup (dmUpd m t ft) u = dmLookup m u := by
  unfold dmUpd
  cases h : dmLookup m t with
  | none => exact dmLookup_dmSet_ne m t ft u hu
  | some v =>
    by_cases hv : ft > v
    · simp [hv, dmLookup_dmSet_ne m t ft u hu]
    · simp [hv]

theorem dmLookup_eq_none_iff (m : List (ℕ × ℚ)) (t : ℕ) :
    dmLookup m t = none ↔ t ∉ keys m := by
  induction m with
  | nil => simp [dmLookup, keys]
  | cons p rest ih =>
    by_cases h : p.1 = t
    · simp [dmLookup, keys, h, ih]
    · simp [dmLookup, keys, h, ih]
      exact fun _ he => h he.symm

theorem dmLookup_buildMap (l : List (ℕ × ℚ)) :
    ∀ (m : List (ℕ × ℚ)) (t : ℕ),
      dmLookup (buildMap m l) t = omax (dmLookup m t) (maxAt l t) := by
  induction l with
  | nil => intro m t; simp [buildMap, maxAt, omax_none_right]
  | cons p rest ih =>
    intro m t
    rw [buildMap, ih, maxAt_cons]
    by_cases h : p.1 = t
    · subst h
      rw [if_pos rfl, dmLookup_dmUpd_self, omax_assoc]
    · rw [if_neg h, dmLookup_dmUpd_ne m p.1 p.2 t (fun ht => h ht.symm)]

theorem dmLookup_buildMap_nil (l : List (ℕ × ℚ)) (t : ℕ) :
    dmLookup (buildMap [] l) t = maxAt l t := by
  rw [dmLookup_buildMap]; rfl

/-! Keys of the dict: distinctness and membership. -/

theorem keys_cons (p : ℕ × ℚ) (m : List (ℕ × ℚ)) : keys (p :: m) = p.1 :: keys m := rfl

theorem keys_append (l₁ l₂ : List (ℕ × ℚ)) : keys (l₁ ++ l₂) = keys l₁ ++ keys l₂ := by
  simp [keys]

theorem keys_dmSet (m : List (ℕ × ℚ)) (t : ℕ) (ft : ℚ) :
    keys (dmSet m t ft) = if t ∈ keys m then keys m else keys m ++ [t] := by
  induction m with
  | nil => simp [dmSet, keys]
  | cons p rest ih =>
    by_cases h : p.1 = t
    · simp [dmSet, h, keys]
    · by_cases hm : t ∈ keys rest
      · simp [dmSet, h, keys_cons, ih, hm, Ne.symm h]
      · simp [dmSet, h, keys_cons, ih, hm, Ne.symm h]

theorem keys_dmUpd (m : List (ℕ × ℚ)) (t : ℕ) (ft : ℚ) :
    keys (dmUpd m t ft) = if t ∈ keys m then keys m else keys m ++ [t] := by
  unfold dmUpd
  cases hl : dmLookup m t with
  | none =>
    have hn : t ∉ keys m := (dmLookup_eq_none_iff m t).1 hl
    simp [keys_dmSet, hn]
  | some v =>
    have ht : t ∈ keys m := by
      by_contra hc
      rw [(dmLookup_eq_none_iff m t).2 hc] at hl
      cases hl
    by_cases hv : ft > v <;> simp [hv, keys_dmSet, ht]

theorem nodup_keys_dmUpd (m : List (ℕ × ℚ)) (t : ℕ) (ft : ℚ)
    (h : (keys m).Nodup) : (keys (dmUpd m t ft)).Nodup := by
  rw [keys_dmUpd]
  by_cases ht : t ∈ keys m
  · simpa [ht] using h
  · rw [if_neg ht, List.Perm.nodup_iff (List.perm_append_singleton t (keys m)),
      List.nodup_cons]
    exact ⟨ht, h⟩

theorem nodup_keys_buildMap (l : List (ℕ × ℚ)) :
    ∀ m, (keys m).Nodup → (keys (buildMap m l)).Nodup := by
  induction l with
  | nil => intro m h; simpa [buildMap] using h
  | cons p rest ih =>
    intro m h
    rw [buildMap]
    exact ih _ (nodup_keys_dmUpd m p.1 p.2 h)

theorem mem_keys_buildMap_nil (l : List (ℕ × ℚ)) (t : ℕ) :
    t ∈ keys (buildMap [] l) ↔ t ∈ keys l := by
  rw [← not_iff_not, ← dmLookup_eq_none_iff, ← maxAt_eq_none_iff,
    dmLookup_buildMap_nil]

/-! The sorted listing produced by dedupe_peaks. -/

theorem keys_filterMap_lookup (m : List (ℕ × ℚ)) (ks : List ℕ)
    (h : ∀ t ∈ ks, t ∈ keys m) :
    keys (ks.filterMap fun t => (dmLookup m t).map fun v => (t, v)) = ks := by
  induction ks with
  | nil => rfl
  | cons t ks ih =>
    have ht : t ∈ keys m := h t (List.mem_cons_self t ks)
    obtain ⟨v, hv⟩ : ∃ v, dmLookup m t = some v := by
      cases hl : dmLookup m t with
      | none => exact absurd ht ((dmLookup_eq_none_iff m t).1 hl)
      | some v => exact ⟨v, rfl⟩
    rw [List.filterMap_cons]
    simp only [hv, Option.map_some']
    rw [keys_cons, ih (fun u hu => h u (List.mem_cons_of_mem t hu))]

theorem keys_dedupe_peaks (l : List (ℕ × ℚ)) :
    keys (dedupe_peaks l) =
      List.insertionSort (· ≤ ·) (keys (buildMap [] l)) := by
  unfold dedupe_peaks
  exact keys_filterMap_lookup _ _
    (fun t ht => (List.perm_insertionSort (· ≤ ·) (keys (buildMap [] l))).mem_iff.1 ht)

theorem sorted_keys_dedupe (l : List (ℕ × ℚ)) :
    (keys (dedupe_peaks l)).Sorted (· ≤ ·) := by
  rw [keys_dedupe_peaks]
  exact List.sorted_insertionSort _ _

theorem nodup_keys_dedupe (l : List (ℕ × ℚ)) : (keys (dedupe_peaks l)).Nodup := by
  rw [keys_dedupe_peaks]
  exact ((List.perm_insertionSort _ _).nodup_iff).2
    (nodup_keys_buildMap l [] (by simp [keys]))

theorem mem_keys_dedupe (l : List (ℕ × ℚ)) (t : ℕ) :
    t ∈ keys (dedupe_peaks l) ↔ t ∈ keys l := by
  rw [keys_dedupe_peaks, (List.perm_insertionSort _ _).mem_iff, mem_keys_buildMap_nil]

theorem mem_dedupe_peaks (l : List (ℕ × ℚ)) (t : ℕ) (v : ℚ) :
    (t, v) ∈ dedupe_peaks l ↔ maxAt l t = some v := by
  unfold dedupe_peaks
  rw [List.mem_filterMap]
  constructor
  · rintro ⟨a, _, hfa⟩
    cases hl : dmLookup (buildMap [] l) a with
    | none => rw [hl] at hfa; cases hfa
    | some w =>
      rw [hl] at hfa
      have haw : a = t ∧ w = v := by simpa using hfa
      obtain ⟨rfl, rfl⟩ := haw
      rw [← dmLookup_buildMap_nil]
      exact hl
  · intro h
    have hmem : t ∈ keys l := by
      by_contra hc
      rw [(maxAt_eq_none_iff l t).2 hc] at h
      cases h
    refine ⟨t, ?_, ?_⟩
    · rw [(List.perm_insertionSort _ _).mem_iff, mem_keys_buildMap_nil]
      exact hmem
    · rw [dmLookup_buildMap_nil, h]
      rfl

theorem maxAt_of_mem_nodup (m : List (ℕ × ℚ)) (t : ℕ) (v : ℚ) :
    (keys m).Nodup → (t, v) ∈ m → maxAt m t = some v := by
  induction m with
  | nil => intro _ hm; cases hm
  | cons p rest ih =>
    intro h hm
    rw [keys_cons, List.nodup_cons] at h
    rcases List.mem_cons.1 hm with hp | hr
    · have hn : maxAt rest t = none := by
        rw [maxAt_eq_none_iff]
        intro hk
        apply h.1
        rw [← hp]
        exact hk
      rw [← hp]
      simp [maxAt, hn]
    · have htp : p.1 ≠ t := by
        intro he
        exact h.1 (he ▸ List.mem_map_of_mem Prod.fst hr)
      simp [maxAt, htp, ih h.2 hr]

theorem maxAt_dedupe (l : List (ℕ × ℚ)) (t : ℕ) :
    maxAt (dedupe_peaks l) t = maxAt l t := by
  cases h : maxAt l t with
  | some v =>
    exact maxAt_of_mem_nodup _ t v (nodup_keys_dedupe l) ((mem_dedupe_peaks l t v).2 h)
  | none =>
    rw [maxAt_eq_none_iff] at h ⊢
    rw [mem_keys_dedupe]
    exact h

/-- dedupe_peaks is determined by the per-timestamp maximum of its input. -/
theorem dedupe_ext (l₁ l₂ : List (ℕ × ℚ)) (h : ∀ t, maxAt l₁ t = maxAt l₂ t) :
    dedupe_peaks l₁ = dedupe_peaks l₂ := by
  have hmem : ∀ t, t ∈ keys (buildMap [] l₁) ↔ t ∈ keys (buildMap [] l₂) := by
    intro t
    rw [mem_keys_buildMap_nil, mem_keys_buildMap_nil, ← not_iff_not,
      ← maxAt_eq_none_iff, ← maxAt_eq_none_iff, h t]
  have hsp : List.Perm (List.insertionSort (· ≤ ·) (keys (buildMap [] l₁)))
      (List.insertionSort (· ≤ ·) (keys (buildMap [] l₂))) :=
    ((List.perm_insertionSort _ _).trans
      ((List.perm_ext_iff_of_nodup (nodup_keys_buildMap l₁ [] (by simp [keys]))
        (nodup_keys_buildMap l₂ [] (by simp [keys]))).2 hmem)).trans
      (List.perm_insertionSort _ _).symm
  have hsorteq : List.insertionSort (· ≤ ·) (keys (buildMap [] l₁)) =
      List.insertionSort (· ≤ ·) (keys (buildMap [] l₂)) :=
    List.eq_of_perm_of_sorted hsp (List.sorted_insertionSort _ _)
      (List.sorted_insertionSort _ _)
  unfold dedupe_peaks
  rw [hsorteq]
  apply List.filterMap_congr
  intro t _
  rw [dmLookup_buildMap_nil, dmLookup_buildMap_nil, h t]

/-! A record list that already satisfies the Index invariant is a fixed
point of dedupe_peaks. -/

theorem dmSet_of_not_mem (m : List (ℕ × ℚ)) (t : ℕ) (ft : ℚ)
    (h : t ∉ keys m) : dmSet m t ft = m ++ [(t, ft)] := by
  induction m with
  | nil => rfl
  | cons p rest ih =>
    rw [keys_cons] at h
    have h1 : ¬p.1 = t := fun he => h (by rw [he]; exact List.mem_cons_self t (keys rest))
    have h2 : t ∉ keys rest := fun hm => h (List.mem_cons_of_mem _ hm)
    simp [dmSet, h1, ih h2]

theorem buildMap_of_fresh (l : List (ℕ × ℚ)) :
    ∀ m, (keys l).Nodup → (∀ t ∈ keys l, t ∉ keys m) → buildMap m l = m ++ l := by
  induction l with
  | nil => intro m _ _; simp [buildMap]
  | cons p rest ih =>
    intro m hnd hf
    rw [keys_cons, List.nodup_cons] at hnd
    have hp : p.1 ∉ keys m := hf p.1 (by rw [keys_cons]; exact List.mem_cons_self _ _)
    have hupd : dmUpd m p.1 p.2 = m ++ [p] := by
      unfold dmUpd
      rw [(dmLookup_eq_none_iff m p.1).2 hp, dmSet_of_not_mem m p.1 p.2 hp]
    have hfresh : ∀ t ∈ keys rest, t ∉ keys (m ++ [p]) := by
      intro t ht
      have h1 : t ∉ keys m := hf t (by rw [keys_cons]; exact List.mem_cons_of_mem _ ht)
      have h2 : t ≠ p.1 := fun he => hnd.1 (he ▸ ht)
      rw [keys_append]
      intro hmem
      rcases List.mem_append.1 hmem with h3 | h3
      · exact h1 h3
      · exact h2 (by simpa [keys] using h3)
    rw [buildMap, hupd, ih (m ++ [p]) hnd.2 hfresh, List.append_assoc,
      List.singleton_append]

theorem filterMap_lookup_self (m : List (ℕ × ℚ)) :
    (keys m).Nodup →
    ((keys m).filterMap fun t => (dmLookup m t).map fun v => (t, v)) = m := by
  induction m with
  | nil => intro _; rfl
  | cons p rest ih =>
    intro h
    rw [keys_cons, List.nodup_cons] at h
    rw [keys_cons, List.filterMap_cons]
    have hp : dmLookup (p :: rest) p.1 = some p.2 := by simp [dmLookup]
    simp only [hp, Option.map_some']
    have hcong : ∀ t ∈ keys rest,
        ((dmLookup (p :: rest) t).map fun v => (t, v)) =
          ((dmLookup rest t).map fun v => (t, v)) := by
      intro t ht
      have hne : ¬p.1 = t := fun he => h.1 (he ▸ ht)
      simp [dmLookup, hne]
    rw [List.filterMap_congr hcong, ih h.2]

theorem dedupe_canonical (X : List (ℕ × ℚ)) (hnd : (keys X).Nodup)
    (hs : (keys X).Sorted (· ≤ ·)) : dedupe_peaks X = X := by
  unfold dedupe_peaks
  rw [buildMap_of_fresh X [] hnd (fun t _ => by simp [keys]),
    List.nil_append, List.Sorted.insertionSort_eq hs]
  exact filterMap_lookup_self X hnd

/-! Structure of the detector scan. -/

/-- The scan splits into the records emitted inside the loop followed by
the final flush of a still-open peak. -/
theorem peakGo_decomp (minor : ℚ) (pts : List (ℕ × ℚ)) :
    ∀ st, peakGo minor st pts =
      runEmits minor st pts ++
        Option.elim (runState minor st pts) [] (fun pk => [pk]) := by
  induction pts with
  | nil => intro st; cases st <;> rfl
  | cons s rest ih =>
    intro st
    rw [peakGo, runEmits, runState, ih, List.append_assoc]

/-- Every peak carried by the state or emitted by the scan is at least
the threshold, provided the incoming state already satisfies this. -/
theorem peakGo_ge (minor : ℚ) (pts : List (ℕ × ℚ)) :
    ∀ st, (∀ pk, st = some pk → minor ≤ pk.2) →
      ∀ x ∈ peakGo minor st pts, minor ≤ x.2 := by
  induction pts with
  | nil =>
    intro st hst x hx
    cases st with
    | none => simp [peakGo] at hx
    | some pk =>
      simp [peakGo] at hx
      rw [hx]
      exact hst pk rfl
  | cons s rest ih =>
    intro st hst x hx
    rw [peakGo] at hx
    rcases List.mem_append.1 hx with hx1 | hx2
    · cases st with
      | none => by_cases hge : s.2 ≥ minor <;> simp [peakStep, hge] at hx1
      | some pk =>
        by_cases hlt : s.2 < minor
        · simp [peakStep, hlt] at hx1
          by_cases hgt : s.2 > pk.2
          · rw [if_pos hgt] at hx1
            rw [hx1]
            exact le_of_lt (lt_of_le_of_lt (hst pk rfl) hgt)
          · rw [if_neg hgt] at hx1
            rw [hx1]
            exact hst pk rfl
        · simp [peakStep, hlt] at hx1
    · refine ih (peakStep minor st s).1 ?_ x hx2
      intro pk2 hpk2
      cases st with
      | none =>
        by_cases hge : s.2 ≥ minor
        · simp [peakStep, hge] at hpk2
          rw [← hpk2]
          exact hge
        · simp [peakStep, hge] at hpk2
      | some pk =>
        by_cases hlt : s.2 < minor
        · simp [peakStep, hlt] at hpk2
        · simp [peakStep, hlt] at hpk2
          by_cases hgt : s.2 > pk.2
          · rw [if_pos hgt] at hpk2
            rw [← hpk2]
            exact le_of_not_lt hlt
          · rw [if_neg hgt] at hpk2
            rw [← hpk2]
            exact hst pk rfl

/-- Every record produced by the scan is the peak held in the incoming
state or one of the scanned samples. -/
theorem mem_peakGo (minor : ℚ) (pts : List (ℕ × ℚ)) :
    ∀ st x, x ∈ peakGo minor st pts →
      (∃ pk, st = some pk ∧ x = pk) ∨ x ∈ pts := by
  induction pts with
  | nil =>
    intro st x hx
    cases st with
    | none => simp [peakGo] at hx
    | some pk =>
      simp [peakGo] at hx
      exact Or.inl ⟨pk, rfl, hx⟩
  | cons s rest ih =>
    intro st x hx
    rw [peakGo] at hx
    rcases List.mem_append.1 hx with hx1 | hx2
    · cases st with
      | none => by_cases hge : s.2 ≥ minor <;> simp [peakStep, hge] at hx1
      | some pk =>
        by_cases hlt : s.2 < minor
        · simp [peakStep, hlt] at hx1
          by_cases hgt : s.2 > pk.2
          · rw [if_pos hgt] at hx1
            exact Or.inr (by rw [hx1]; exact List.mem_cons_self s rest)
          · rw [if_neg hgt] at hx1
            exact Or.inl ⟨pk, rfl, hx1⟩
        · simp [peakStep, hlt] at hx1
    · rcases ih (peakStep minor st s).1 x hx2 with ⟨pk2, hpk2, hxeq⟩ | hmem
      · cases st with
        | none =>
          by_cases hge : s.2 ≥ minor
          · simp [peakStep, hge] at hpk2
            exact Or.inr (by rw [hxeq, ← hpk2]; exact List.mem_cons_self s rest)
          · simp [peakStep, hge] at hpk2
        | some pk =>
          by_cases hlt : s.2 < minor
          · simp [peakStep, hlt] at hpk2
          · simp [peakStep, hlt] at hpk2
            by_cases hgt : s.2 > pk.2
            · rw [if_pos hgt] at hpk2
              exact Or.inr (by rw [hxeq, ← hpk2]; exact List.mem_cons_self s rest)
            · rw [if_neg hgt] at hpk2
              exact Or.inl ⟨pk, rfl, by rw [hxeq, ← hpk2]⟩
      · exact Or.inr (List.mem_cons_of_mem s hmem)

/-! The claims. -/

/-- Claim C1: a sample with value equal to the threshold counts as above
the threshold both for entering an event (from the BELOW state it seeds
the peak) and for remaining in one (from the ABOVE state it emits
nothing and the state stays occupied); an ongoing event is closed, and
its peak emitted, exactly when the sample value is strictly less than
the threshold. -/
theorem claim_C1_threshold_boundary (minor ft : ℚ) (t : ℕ) (pk : ℕ × ℚ)
    (rest : List (ℕ × ℚ)) :
    peakStep minor none (t, minor) = (some (t, minor), []) ∧
    (peakStep minor (some pk) (t, minor)).2 = [] ∧
    (peakStep minor (some pk) (t, minor)).1.isSome = true ∧
    ((peakStep minor (some pk) (t, ft)).1 = none ↔ ft < minor) ∧
    ((peakStep minor (some pk) (t, ft)).2 ≠ [] ↔ ft < minor) ∧
    event_peaks ((t, minor) :: rest) minor = peakGo minor (some (t, minor)) rest := by
  refine ⟨?_, ?_, ?_, ?_, ?_, ?_⟩
  · simp [peakStep]
  · simp [peakStep, lt_irrefl]
  · simp [peakStep, lt_irrefl]
  · by_cases h : ft < minor <;> simp [peakStep, h]
  · by_cases h : ft < minor <;> simp [peakStep, h]
  · rw [event_peaks, peakGo]
    simp [peakStep, le_refl]

/-- Claim C2: merging an existing Index with an incoming batch inserts
an incoming record whose timestamp is absent from the existing Index;
for a timestamp present in both, the merged record carries the max of
the two values, and the existing record survives unchanged unless the
incoming value is strictly greater. -/
theorem claim_C2_merge_keeps_max (X Y : List (ℕ × ℚ))
    (hX : (keys X).Nodup) (hY : (keys Y).Nodup) :
    (∀ t v, (t, v) ∈ Y → t ∉ keys X → (t, v) ∈ merge X Y) ∧
    (∀ t u v, (t, u) ∈ X → (t, v) ∈ Y → (t, max u v) ∈ merge X Y) ∧
    (∀ t u v, (t, u) ∈ X → (t, v) ∈ Y → ¬u < v → (t, u) ∈ merge X Y) := by
  refine ⟨?_, ?_, ?_⟩
  · intro t v hv hnx
    show (t, v) ∈ dedupe_peaks (X ++ Y)
    rw [mem_dedupe_peaks, maxAt_append, (maxAt_eq_none_iff X t).2 hnx]
    exact maxAt_of_mem_nodup Y t v hY hv
  · intro t u v hu hv
    show (t, max u v) ∈ dedupe_peaks (X ++ Y)
    rw [mem_dedupe_peaks, maxAt_append, maxAt_of_mem_nodup X t u hX hu,
      maxAt_of_mem_nodup Y t v hY hv]
    rfl
  · intro t u v hu hv hle
    show (t, u) ∈ dedupe_peaks (X ++ Y)
    rw [mem_dedupe_peaks, maxAt_append, maxAt_of_mem_nodup X t u hX hu,
      maxAt_of_mem_nodup Y t v hY hv]
    show some (max u v) = some u
    rw [max_eq_left (le_of_not_lt hle)]

/-- Witness for C2 at X = [(1, 2)], Y = [(1, 3), (2, 1)]: the fresh
timestamp 2 is inserted and the colliding timestamp 1 gets max 2 3. -/
theorem claim_C2_merge_keeps_max_witness :
    ((2 : ℕ), (1 : ℚ)) ∈ merge [(1, 2)] [(1, 3), (2, 1)] ∧
    ((1 : ℕ), max (2 : ℚ) 3) ∈ merge [(1, 2)] [(1, 3), (2, 1)] :=
  ⟨(claim_C2_merge_keeps_max [(1, 2)] [(1, 3), (2, 1)] (by decide) (by decide)).1
      2 1 (by decide) (by decide),
   (claim_C2_merge_keeps_max [(1, 2)] [(1, 3), (2, 1)] (by decide) (by decide)).2.1
      1 2 3 (by decide) (by decide)⟩

/-- Claim C3: within an above-threshold event the current peak is
replaced only on a strictly greater value, so the first sample attaining
the maximum wins ties; in particular detect on
[(t1,4.30),(t2,4.30),(t3,3.90)] with threshold 4.19 returns [(t1,4.30)]. -/
theorem claim_C3_first_max_wins (t1 t2 t3 tA : ℕ) (minor : ℚ) (pk : ℕ × ℚ) :
    event_peaks [(t1, 43/10), (t2, 43/10), (t3, 39/10)] THRESH_MINOR =
      [(t1, 43/10)] ∧
    peakStep minor (some pk) (tA, pk.2) =
      (if pk.2 < minor then (none, [pk]) else (some pk, [])) := by
  constructor
  · norm_num [event_peaks, peakGo, peakStep, THRESH_MINOR]
  · simp [peakStep, lt_irrefl]

/-- Claim C4: when the sample sequence ends while the detector is still
in the ABOVE state, detect emits the current open peak as its final
record instead of dropping the truncated event. -/
theorem claim_C4_open_event_emitted (pts : List (ℕ × ℚ)) (minor : ℚ)
    (pk : ℕ × ℚ) (h : runState minor none pts = some pk) :
    event_peaks pts minor = runEmits minor none pts ++ [pk] := by
  rw [event_peaks, peakGo_decomp, h]
  rfl

/-- Witness for C4: the single sample (1, 5) with threshold 4 leaves the
detector ABOVE, and the open peak is flushed. -/
theorem claim_C4_open_event_emitted_witness :
    event_peaks [((1 : ℕ), (5 : ℚ))] 4 =
      runEmits 4 none [((1 : ℕ), (5 : ℚ))] ++ [((1 : ℕ), (5 : ℚ))] :=
  claim_C4_open_event_emitted [((1 : ℕ), (5 : ℚ))] 4 ((1 : ℕ), (5 : ℚ)) (by decide)

/-- Claim C5: every peak record returned by detect has value at least
the threshold. -/
theorem claim_C5_peaks_ge_threshold (S : List (ℕ × ℚ)) (T : ℚ) (x : ℕ × ℚ)
    (hx : x ∈ event_peaks S T) : T ≤ x.2 :=
  peakGo_ge T S none (fun _ hk => Option.noConfusion hk) x hx

/-- Witness for C5 on the single sample (1, 5) with threshold 4. -/
theorem claim_C5_peaks_ge_threshold_witness :
    ((1 : ℕ), (5 : ℚ)) ∈ event_peaks [((1 : ℕ), (5 : ℚ))] 4 ∧
    (4 : ℚ) ≤ ((1 : ℕ), (5 : ℚ)).2 :=
  ⟨by decide, claim_C5_peaks_ge_threshold [((1 : ℕ), (5 : ℚ))] 4
    ((1 : ℕ), (5 : ℚ)) (by decide)⟩

/-- Claim C6: merging a batch a second time changes nothing:
merge(X, merge(X, Y)) = merge(X, Y). -/
theorem claim_C6_merge_idempotent (X Y : List (ℕ × ℚ)) :
    merge X (merge X Y) = merge X Y := by
  show dedupe_peaks (X ++ dedupe_peaks (X ++ Y)) = dedupe_peaks (X ++ Y)
  apply dedupe_ext
  intro t
  rw [maxAt_append, maxAt_dedupe, maxAt_append, omax_self_left]

/-- Claim C7: merging an existing Index with an empty incoming batch
returns the existing Index unchanged, order and contents included. -/
theorem claim_C7_merge_empty_noop (X : List (ℕ × ℚ))
    (hs : (keys X).Sorted (· < ·)) : merge X [] = X := by
  show dedupe_peaks (X ++ []) = X
  rw [List.append_nil]
  exact dedupe_canonical X hs.nodup (List.Pairwise.imp (fun h => le_of_lt h) hs)

/-- Witness for C7 on the two-record Index [(1, 5), (3, 2)]. -/
theorem claim_C7_merge_empty_noop_witness :
    merge [((1 : ℕ), (5 : ℚ)), (3, 2)] [] = [((1 : ℕ), (5 : ℚ)), (3, 2)] :=
  claim_C7_merge_empty_noop [((1 : ℕ), (5 : ℚ)), (3, 2)] (by decide)

/-- Claim C8: for all inputs, the Index returned by merge has pairwise
distinct timestamps and is sorted ascending by timestamp. -/
theorem claim_C8_canonical_index (X Y : List (ℕ × ℚ)) :
    (keys (merge X Y)).Nodup ∧ (keys (merge X Y)).Sorted (· ≤ ·) :=
  ⟨nodup_keys_dedupe (X ++ Y), sorted_keys_dedupe (X ++ Y)⟩

/-- Claim C9: for an existing Index with pairwise distinct timestamps,
merge never shrinks the record count and never loses a timestamp. -/
theorem claim_C9_monotone_growth (X Y : List (ℕ × ℚ))
    (hX : (keys X).Nodup) :
    X.length ≤ (merge X Y).length ∧ ∀ t ∈ keys X, t ∈ keys (merge X Y) := by
  have hmem : ∀ t ∈ keys X, t ∈ keys (merge X Y) := by
    intro t ht
    show t ∈ keys (dedupe_peaks (X ++ Y))
    rw [mem_keys_dedupe, keys_append]
    exact List.mem_append_left _ ht
  refine ⟨?_, hmem⟩
  have h1 : (keys X).length = X.length := by simp [keys]
  have h2 : (keys (merge X Y)).length = (merge X Y).length := by simp [keys]
  rw [← h1, ← h2]
  exact (List.subperm_of_subset hX (fun a ha => hmem a ha)).length_le

/-- Witness for C9 at X = [(1, 2)], Y = [(3, 4)]. -/
theorem claim_C9_monotone_growth_witness :
    ([((1 : ℕ), (2 : ℚ))]).length ≤ (merge [((1 : ℕ), (2 : ℚ))] [(3, 4)]).length ∧
    (1 : ℕ) ∈ keys (merge [((1 : ℕ), (2 : ℚ))] [(3, 4)]) :=
  ⟨(claim_C9_monotone_growth [((1 : ℕ), (2 : ℚ))] [(3, 4)] (by decide)).1,
   (claim_C9_monotone_growth [((1 : ℕ), (2 : ℚ))] [(3, 4)] (by decide)).2
      1 (by decide)⟩

/-- Claim C10: every peak record emitted by detect occurs, as a
timestamp-value pair, among the input samples. -/
theorem claim_C10_peaks_are_samples (pts : List (ℕ × ℚ)) (minor : ℚ)
    (x : ℕ × ℚ) (hx : x ∈ event_peaks pts minor) : x ∈ pts := by
  rcases mem_peakGo minor pts none x hx with ⟨pk, hpk, _⟩ | h
  · cases hpk
  · exact h

/-- Witness for C10 on the single sample (1, 5) with threshold 4. -/
theorem claim_C10_peaks_are_samples_witness :
    ((1 : ℕ), (5 : ℚ)) ∈ [((1 : ℕ), (5 : ℚ))] :=
  claim_C10_peaks_are_samples [((1 : ℕ), (5 : ℚ))] 4 ((1 : ℕ), (5 : ℚ)) (by decide)

end BuildData
